import Mathlib

/-!
Verification development for a small relational storage engine
(heap file with free-list, extendible-hash / AVL / B+ secondary indexes,
and a rudimentary SQL front end).

The Python source is shallowly embedded: floats are modelled as exact
rationals (ℚ), Python ints as ℤ/ℕ, Python strings as Lean strings or
lists of characters, and the on-disk structures as explicit functional
state.  Machine-level float rounding is not modelled; every concrete
input used below is chosen so that the float computation in the source
is exact (or its sign/interval is unambiguous), so the rational model
agrees with the float behaviour at those points.
-/

namespace Engine

/-! ## Point (estructuras/point_class.py)

`Point.__lt__/__le__/__gt__/__ge__` compare `math.sqrt(x**2 + y**2)`
(distance to the origin); since `Real.sqrt` is strictly monotone on
nonnegatives, comparing the distances is equivalent to comparing the
squared distances, which we use so that everything stays in ℚ and
decidable.  `Point.__eq__` is coordinate match within `1e-10`. -/

structure Pt where
  x : ℚ
  y : ℚ
deriving DecidableEq, Repr

/-- Squared distance to the origin; `distance_to_origin` is its square
root, and all order comparisons in the source factor through it. -/
def sqDistToOrigin (p : Pt) : ℚ := p.x ^ 2 + p.y ^ 2

/-- `Point.__lt__`: distance to origin strictly smaller. -/
def ptLt (p q : Pt) : Prop := sqDistToOrigin p < sqDistToOrigin q

/-- `Point.__gt__`: distance to origin strictly greater. -/
def ptGt (p q : Pt) : Prop := sqDistToOrigin p > sqDistToOrigin q

/-- `Point.__le__`. -/
def ptLe (p q : Pt) : Prop := sqDistToOrigin p ≤ sqDistToOrigin q

/-- The `1e-10` tolerance of `Point.__eq__`. -/
def ptTol : ℚ := 1 / 10 ^ 10

/-- `Point.__eq__`: both coordinates equal within `1e-10`. -/
def ptEq (p q : Pt) : Prop := |p.x - q.x| < ptTol ∧ |p.y - q.y| < ptTol

instance (p q : Pt) : Decidable (ptLt p q) := by unfold ptLt; infer_instance

instance (p q : Pt) : Decidable (ptGt p q) := by unfold ptGt; infer_instance

instance (p q : Pt) : Decidable (ptEq p q) := by unfold ptEq; infer_instance

end Engine

namespace Engine

/-- C6 counterexample: on the points `(0, 1)` and `(1, 0)` none of
`p < q`, `p > q`, `p = q` holds (both are at distance 1 from the origin
but their coordinates differ by 1 ≫ 1e-10), so the comparison used for
POINT values is not a strict total order: trichotomy fails. -/
theorem point_order_not_total_cex :
    ¬ ptLt ⟨0, 1⟩ ⟨1, 0⟩ ∧ ¬ ptGt ⟨0, 1⟩ ⟨1, 0⟩ ∧ ¬ ptEq ⟨0, 1⟩ ⟨1, 0⟩ := by
  refine ⟨?_, ?_, ?_⟩ <;> norm_num [ptLt, ptGt, ptEq, sqDistToOrigin, ptTol]

/-- C6 (amended): for every two Point values exactly one of `p < q`,
`p > q`, or equal-distance-to-the-origin holds; the comparison is a
strict weak order by distance, not a strict total order, because
distinct equidistant points satisfy none of `<`, `>`, `=`. -/
theorem point_order_distance_trichotomy (p q : Pt) :
    (ptLt p q ∨ ptGt p q ∨ sqDistToOrigin p = sqDistToOrigin q) ∧
      ¬ (ptLt p q ∧ ptGt p q) ∧
      ¬ (ptLt p q ∧ sqDistToOrigin p = sqDistToOrigin q) ∧
      ¬ (ptGt p q ∧ sqDistToOrigin p = sqDistToOrigin q) := by
  unfold ptLt ptGt
  rcases lt_trichotomy (sqDistToOrigin p) (sqDistToOrigin q) with h | h | h
  · exact ⟨Or.inl h, fun h2 => absurd h2.1 (not_lt_of_gt h2.2),
      fun h2 => absurd h2.2 (ne_of_lt h2.1), fun h2 => absurd h2.2 (ne_of_gt h2.1)⟩
  · exact ⟨Or.inr (Or.inr h), fun h2 => absurd h2.1 (not_lt_of_gt h2.2),
      fun h2 => absurd h2.2 (ne_of_lt h2.1), fun h2 => absurd h2.2 (ne_of_gt h2.1)⟩
  · exact ⟨Or.inr (Or.inl h), fun h2 => absurd h2.1 (not_lt_of_gt h2.2),
      fun h2 => absurd h2.2 (ne_of_lt h2.1), fun h2 => absurd h2.2 (ne_of_gt h2.1)⟩

end Engine

namespace Engine

/-! ## Heap file (tabla.py, `TableStorageManager`)

The heap file is a 4-byte header (free-list head, `-1` = empty) followed
by fixed-size record slots; each slot ends in a 4-byte `next` field.
Only the slot count, the header and each slot's `next` field matter for
the free-list discipline and for the ids that `insert` returns, so a
slot is modelled by its `next` value (the payload written alongside it
does not influence any id computation). -/

/-- `RECORD_NORMAL = -2`: the slot is live. -/
def RECORD_NORMAL : Int := -2

structure HeapF where
  header : Int
  slots : List Int
deriving DecidableEq, Repr

/-- `_initialize_file`: header `-1`, no slots. -/
def emptyHeap : HeapF := ⟨-1, []⟩

/-- The `next` field of slot `id` (ids are 1-based). -/
def slotNext (h : HeapF) (id : Nat) : Int := h.slots.getD (id - 1) 0

/-- Heap part of `TableStorageManager.insert` (tabla.py:487-507): if the
header is not `-1` reuse that slot (its `next` becomes the new header,
the slot is overwritten with `next = RECORD_NORMAL`), otherwise append a
new slot; the id is the previous slot count plus one. -/
def heapInsert (h : HeapF) : HeapF × Nat :=
  if h.header ≠ -1 then
    let id := h.header.toNat
    (⟨slotNext h id, h.slots.set (id - 1) RECORD_NORMAL⟩, id)
  else
    (⟨h.header, h.slots ++ [RECORD_NORMAL]⟩, h.slots.length + 1)

/-- `TableStorageManager.delete` (tabla.py:552-577): no-op unless the
slot exists and is live; otherwise its `next` gets the current header
and the header gets the slot id. -/
def heapDelete (h : HeapF) (id : Nat) : HeapF × Bool :=
  if id < 1 ∨ h.slots.length < id then (h, false)
  else if slotNext h id ≠ RECORD_NORMAL then (h, false)
  else (⟨(id : Int), h.slots.set (id - 1) h.header⟩, true)

/-- `N` consecutive inserts into a fresh heap file. -/
def insertN : Nat → HeapF
  | 0 => emptyHeap
  | n + 1 => (heapInsert (insertN n)).1

/-- Delete the listed record ids in order. -/
def deleteAll (h : HeapF) (ds : List Nat) : HeapF :=
  ds.foldl (fun h d => (heapDelete h d).1) h

/-- `k` consecutive inserts, collecting the returned record ids. -/
def insertSeq : HeapF → Nat → HeapF × List Nat
  | h, 0 => (h, [])
  | h, k + 1 =>
    let p := heapInsert h
    let q := insertSeq p.1 k
    (q.1, p.2 :: q.2)

/-- Head of the free-list as the header encodes it. -/
def headOfFree : List Nat → Int
  | [] => -1
  | a :: _ => (a : Int)

/-- The free-list: each freed slot's `next` points at the next freed
slot, the last one holds `-1`. -/
def FreeChain (slots : List Int) : List Nat → Prop
  | [] => True
  | a :: t => 1 ≤ a ∧ a ≤ slots.length ∧ slots.getD (a - 1) 0 = headOfFree t ∧
      FreeChain slots t

/-- Well-formed heap state: `N` slots, header = free-list head, the
freed slots form the free-list and every other slot is live. -/
def GoodHeap (h : HeapF) (N : Nat) (freed : List Nat) : Prop :=
  h.slots.length = N ∧ h.header = headOfFree freed ∧ FreeChain h.slots freed ∧
    freed.Nodup ∧ ∀ i, 1 ≤ i → i ≤ N → i ∉ freed → slotNext h i = RECORD_NORMAL

theorem getD_set_ne (l : List Int) (i j : Nat) (x d : Int) (h : i ≠ j) :
    (l.set i x).getD j d = l.getD j d := by
  rw [List.getD_eq_getD_get?, List.getD_eq_getD_get?, List.get?_eq_getElem?,
    List.get?_eq_getElem?, List.getElem?_set_ne h]

theorem getD_set_self (l : List Int) (i : Nat) (x d : Int) (h : i < l.length) :
    (l.set i x).getD i d = x := by
  rw [List.getD_eq_getD_get?, List.get?_eq_getElem?, List.getElem?_set_eq_of_lt _ h,
    Option.getD_some]

theorem freeChain_set_ne (slots : List Int) (freed : List Nat) (d : Nat) (x : Int)
    (hd : 1 ≤ d) (hnot : d ∉ freed) (hc : FreeChain slots freed) :
    FreeChain (slots.set (d - 1) x) freed := by
  induction freed with
  | nil => trivial
  | cons a t ih =>
    obtain ⟨h1, h2, h3, h4⟩ := hc
    have hne : a ≠ d := fun h => hnot (h ▸ List.mem_cons_self a t)
    refine ⟨h1, by simpa using h2, ?_, ih (fun hm => hnot (List.mem_cons_of_mem a hm)) h4⟩
    rw [getD_set_ne]
    · exact h3
    · omega

end Engine

namespace Engine

theorem heapInsert_fresh (h : HeapF) (N : Nat) (hg : GoodHeap h N []) :
    heapInsert h = (⟨-1, h.slots ++ [RECORD_NORMAL]⟩, N + 1) ∧
      GoodHeap ⟨-1, h.slots ++ [RECORD_NORMAL]⟩ (N + 1) [] := by
  obtain ⟨hlen, hhd, _, _, hlive⟩ := hg
  have hhd' : h.header = -1 := hhd
  constructor
  · simp only [heapInsert, hhd', ne_eq, not_true_eq_false, if_false, hlen]
  · refine ⟨by simp [hlen], rfl, trivial, List.nodup_nil, ?_⟩
    intro i h1 h2 _
    rcases Nat.lt_or_ge i (N + 1) with hlt | hge
    · have hiN : i ≤ N := by omega
      have hap : (h.slots ++ [RECORD_NORMAL]).getD (i - 1) 0 = h.slots.getD (i - 1) 0 :=
        List.getD_append _ _ _ _ (by omega)
      show (h.slots ++ [RECORD_NORMAL]).getD (i - 1) 0 = RECORD_NORMAL
      rw [hap]
      exact hlive i h1 hiN (List.not_mem_nil i)
    · have hi : i = N + 1 := by omega
      subst hi
      simp only [slotNext]
      rw [List.getD_append_right _ _ _ _ (by omega), hlen]
      simp

theorem heapInsert_pop (h : HeapF) (N : Nat) (d : Nat) (freed : List Nat)
    (hg : GoodHeap h N (d :: freed)) :
    heapInsert h = (⟨headOfFree freed, h.slots.set (d - 1) RECORD_NORMAL⟩, d) ∧
      GoodHeap ⟨headOfFree freed, h.slots.set (d - 1) RECORD_NORMAL⟩ N freed := by
  obtain ⟨hlen, hhd, hc, hnd, hlive⟩ := hg
  obtain ⟨hd1, hdN, hnext, hct⟩ := hc
  have hhd' : h.header = (d : Int) := hhd
  have hne : h.header ≠ -1 := by rw [hhd']; omega
  have htoNat : h.header.toNat = d := by rw [hhd']; exact Int.toNat_natCast d
  have hdnf : d ∉ freed := by
    intro hm; exact (List.nodup_cons.mp hnd).1 hm
  constructor
  · simp only [heapInsert]
    rw [if_pos hne]
    simp only [htoNat, slotNext, hnext]
  · refine ⟨by simpa using hlen, rfl, ?_, (List.nodup_cons.mp hnd).2, ?_⟩
    · exact freeChain_set_ne _ _ _ _ hd1 hdnf hct
    · intro i h1 h2 hnm
      by_cases hid : i = d
      · subst hid
        simp only [slotNext]
        exact getD_set_self _ _ _ _ (by omega)
      · have : (h.slots.set (d - 1) RECORD_NORMAL).getD (i - 1) 0 =
            h.slots.getD (i - 1) 0 := getD_set_ne _ _ _ _ _ (by omega)
        simp only [slotNext, this]
        exact hlive i h1 h2 (by simp [hid, hnm])

theorem heapDelete_step (h : HeapF) (N : Nat) (d : Nat) (freed : List Nat)
    (hg : GoodHeap h N freed) (hd1 : 1 ≤ d) (hdN : d ≤ N) (hnot : d ∉ freed) :
    heapDelete h d = (⟨(d : Int), h.slots.set (d - 1) h.header⟩, true) ∧
      GoodHeap ⟨(d : Int), h.slots.set (d - 1) h.header⟩ N (d :: freed) := by
  obtain ⟨hlen, hhd, hc, hnd, hlive⟩ := hg
  have hlv : slotNext h d = RECORD_NORMAL := hlive d hd1 hdN hnot
  constructor
  · simp only [heapDelete, hlen]
    rw [if_neg (by omega), if_neg (by simp [hlv])]
  · refine ⟨by simpa using hlen, rfl, ⟨hd1, by simpa [hlen] using hdN, ?_, ?_⟩,
      List.nodup_cons.mpr ⟨hnot, hnd⟩, ?_⟩
    · rw [getD_set_self _ _ _ _ (by omega), hhd]
    · exact freeChain_set_ne _ _ _ _ hd1 hnot hc
    · intro i h1 h2 hnm
      have hid : i ≠ d := fun he => hnm (he ▸ List.mem_cons_self d freed)
      have : (h.slots.set (d - 1) h.header).getD (i - 1) 0 = h.slots.getD (i - 1) 0 :=
        getD_set_ne _ _ _ _ _ (by omega)
      simp only [slotNext, this]
      exact hlive i h1 h2 (fun hm => hnm (List.mem_cons_of_mem d hm))

theorem goodHeap_insertN (N : Nat) : GoodHeap (insertN N) N [] := by
  induction N with
  | zero =>
    refine ⟨rfl, rfl, trivial, List.nodup_nil, ?_⟩
    intro i h1 h2 _; omega
  | succ n ih =>
    have := heapInsert_fresh (insertN n) n ih
    simpa [insertN, this.1] using this.2

theorem deleteAll_good (N : Nat) (ds : List Nat) : ∀ (h : HeapF) (freed : List Nat),
    GoodHeap h N freed → ds.Nodup → (∀ d ∈ ds, 1 ≤ d ∧ d ≤ N) →
    (∀ d ∈ ds, d ∉ freed) → GoodHeap (deleteAll h ds) N (ds.reverse ++ freed) := by
  induction ds with
  | nil => intro h freed hg _ _ _; simpa [deleteAll] using hg
  | cons d t ih =>
    intro h freed hg hnd hb hnf
    have hb1 := hb d (List.mem_cons_self d t)
    have hstep := heapDelete_step h N d freed hg hb1.1 hb1.2
      (hnf d (List.mem_cons_self d t))
    have hrec := ih _ (d :: freed) hstep.2 (List.nodup_cons.mp hnd).2
      (fun e he => hb e (List.mem_cons_of_mem d he))
      (fun e he => by
        intro hm
        rcases List.mem_cons.mp hm with he' | he'
        · exact (List.nodup_cons.mp hnd).1 (he' ▸ he)
        · exact hnf e (List.mem_cons_of_mem d he) he')
    have hfold : deleteAll h (d :: t) = deleteAll (heapDelete h d).1 t := rfl
    rw [hfold, hstep.1]
    simpa [List.reverse_cons, List.append_assoc] using hrec

theorem insertSeq_pop (N : Nat) (freed : List Nat) : ∀ (h : HeapF),
    GoodHeap h N freed → (insertSeq h (freed.length + 1)).2 = freed ++ [N + 1] := by
  induction freed with
  | nil =>
    intro h hg
    have := heapInsert_fresh h N hg
    simp [insertSeq, this.1]
  | cons d t ih =>
    intro h hg
    have hpop := heapInsert_pop h N d t hg
    have hrec := ih _ hpop.2
    simp only [List.length_cons, insertSeq, hpop.1]
    simpa using hrec

end Engine

namespace Engine

/-- C2: after inserting `N` records into a fresh heap file and then
deleting the distinct live ids `ds` (in order), the next `|ds|` inserts
return exactly the deleted ids in LIFO order of deletion (most recently
deleted first, via the header free-list), and the following insert
returns the fresh id `N + 1` (current slot count plus one). -/
theorem heap_slot_reuse (N : Nat) (ds : List Nat) (hnd : ds.Nodup)
    (hb : ∀ d ∈ ds, 1 ≤ d ∧ d ≤ N) :
    (insertSeq (deleteAll (insertN N) ds) (ds.length + 1)).2 = ds.reverse ++ [N + 1] := by
  have hg0 := goodHeap_insertN N
  have hgd := deleteAll_good N ds (insertN N) [] hg0 hnd hb
    (fun d _ => List.not_mem_nil d)
  rw [List.append_nil] at hgd
  have := insertSeq_pop N ds.reverse (deleteAll (insertN N) ds) hgd
  simpa [List.length_reverse] using this

/-- C2 witness: three inserts, delete ids 1 then 3; the next two inserts
return 3 then 1 (LIFO), the third returns the fresh id 4. -/
theorem heap_slot_reuse_witness :
    (insertSeq (deleteAll (insertN 3) [1, 3]) 3).2 = [3, 1, 4] := by
  have := heap_slot_reuse 3 [1, 3] (by decide) (by decide)
  simpa using this

end Engine

namespace Engine

/-! ## Table manager (tabla.py, `TableStorageManager.insert` /
`delete_records`)

The table manager owns the heap file and a dict of per-column index
objects.  The code is polymorphic in the index classes (hash, AVL, B+,
R-tree all expose `search` / `insert_record` / `delete_record`), so the
index layer is a type parameter `ι` together with the operations the
manager calls.  Column values are a type parameter `α`
(`_validate_and_convert_record` leaves non-POINT values unchanged and
normalizes POINT inputs; the record below is the validated record). -/

structure TableM (α ι : Type) where
  heap : HeapF
  indices : List (String × ι)

inductive InsRes where
  | missingAttr (a : String)
  | dup
  | inserted (id : Nat)
deriving DecidableEq, Repr

/-- Heap write plus index maintenance shared by both branches of
`TableStorageManager.insert` (tabla.py:487-512): write the record to the
heap (free slot reuse or append) and insert the new id into every
index. -/
def tableInsertWrite {α ι : Type} (idxInsert : ι → Nat → ι)
    (t : TableM α ι) : TableM α ι × InsRes :=
  let p := heapInsert t.heap
  (⟨p.1, t.indices.map (fun e => (e.1, idxInsert e.2 p.2))⟩, .inserted p.2)

/-- `TableStorageManager.insert` (tabla.py:462-512): validate attribute
presence (raises on a missing attribute), probe the primary-key index
for a duplicate (returns `None` if one exists), then write to the heap
and update every index. -/
def tableInsert {α ι : Type} [Inhabited α]
    (idxSearch : ι → α → List Nat) (idxInsert : ι → Nat → ι)
    (attrs : List String) (pkAttr : Option String)
    (t : TableM α ι) (record : List (String × α)) : TableM α ι × InsRes :=
  match attrs.find? (fun a => (record.lookup a).isNone) with
  | some a => (t, .missingAttr a)
  | none =>
    match pkAttr.bind (fun pk => (t.indices.lookup pk).map (fun ix => (pk, ix))) with
    | some pkix =>
      let pkv := (record.lookup pkix.1).getD default
      if idxSearch pkix.2 pkv ≠ [] then (t, .dup)
      else tableInsertWrite idxInsert t
    | none => tableInsertWrite idxInsert t

/-- C4: if the primary-key column is indexed and the equality search in
that index finds an existing record with the new record's key value,
`insert` is refused (duplicate-key failure, no record id) and both the
heap file and every index are returned unchanged. -/
theorem insert_duplicate_pk_refused {α ι : Type} [Inhabited α]
    (idxSearch : ι → α → List Nat) (idxInsert : ι → Nat → ι)
    (attrs : List String) (pk : String) (ix : ι)
    (t : TableM α ι) (record : List (String × α))
    (hattrs : ∀ a ∈ attrs, (record.lookup a).isSome)
    (hidx : t.indices.lookup pk = some ix)
    (hdup : idxSearch ix ((record.lookup pk).getD default) ≠ []) :
    tableInsert idxSearch idxInsert attrs (some pk) t record = (t, .dup) := by
  have hfind : attrs.find? (fun a => (record.lookup a).isNone) = none := by
    rw [List.find?_eq_none]
    intro a ha
    have := hattrs a ha
    simp only [Option.isNone_iff_eq_none]
    intro hcon
    rw [hcon] at this
    exact absurd this (by simp)
  simp only [tableInsert, hfind, Option.bind_eq_bind, Option.some_bind, hidx,
    Option.map_some']
  rw [if_pos hdup]

/-- C4 witness: a one-column table with an indexed key column whose
index already maps the key value to record 1: insert returns the table
unchanged with a duplicate failure. -/
theorem insert_duplicate_pk_refused_witness :
    tableInsert (fun (_ : Unit) (_ : Int) => [1]) (fun u _ => u)
      [("id")] (some ("id")) ⟨emptyHeap, [(("id"), ())]⟩ [(("id"), (7 : Int))] =
      (⟨emptyHeap, [(("id"), ())]⟩, .dup) := by
  exact insert_duplicate_pk_refused _ _ _ _ () _ _ (by decide) (by decide) (by decide)

end Engine

namespace Engine

/-! ## Multi-record delete (tabla.py, `TableStorageManager.delete_records`)

For each record number the code reads the slot, skips it unless live,
runs `delete_record` on every index catching exceptions per index
(`indices_success` goes false on an exception but the loop continues),
and only when every index delete ran without an exception does it call
`self.delete` to free the heap slot.  An index delete that merely
returns `None` (id absent) is not treated as a failure, matching §4.3's
`delete → record_id | none`.  An exception is modelled as
`Except.error`; what the partially-run index mutation left behind is
unobservable, so the pre-call index state is kept there. -/

def runIdxDeletes {ι : Type} (idxDelete : ι → Nat → Except Unit (ι × Option Nat)) :
    List (String × ι) → Nat → List (String × ι) × Bool
  | [], _ => ([], true)
  | e :: rest, rn =>
    match idxDelete e.2 rn with
    | .ok p =>
      let r := runIdxDeletes idxDelete rest rn
      ((e.1, p.1) :: r.1, r.2)
    | .error _ =>
      let r := runIdxDeletes idxDelete rest rn
      ((e.1, e.2) :: r.1, false)

/-- Body of the `delete_records` loop for one record number
(tabla.py:597-628). -/
def processRecord {α ι : Type} (idxDelete : ι → Nat → Except Unit (ι × Option Nat))
    (t : TableM α ι) (rn : Nat) : TableM α ι :=
  if rn < 1 ∨ t.heap.slots.length < rn then t
  else if slotNext t.heap rn ≠ RECORD_NORMAL then t
  else
    let r := runIdxDeletes idxDelete t.indices rn
    if r.2 then ⟨(heapDelete t.heap rn).1, r.1⟩ else ⟨t.heap, r.1⟩

/-- `TableStorageManager.delete_records` (tabla.py:579-634). -/
def deleteRecords {α ι : Type} (idxDelete : ι → Nat → Except Unit (ι × Option Nat))
    (t : TableM α ι) (recs : List Nat) : TableM α ι :=
  recs.foldl (processRecord idxDelete) t

theorem processRecord_slotNext_other {α ι : Type}
    (idxDelete : ι → Nat → Except Unit (ι × Option Nat))
    (t : TableM α ι) (rn rn' : Nat) (h1 : 1 ≤ rn) (hne : rn' ≠ rn) :
    slotNext (processRecord idxDelete t rn').heap rn = slotNext t.heap rn := by
  unfold processRecord
  by_cases hc1 : rn' < 1 ∨ t.heap.slots.length < rn'
  · rw [if_pos hc1]
  · rw [if_neg hc1]
    by_cases hc2 : slotNext t.heap rn' ≠ RECORD_NORMAL
    · rw [if_pos hc2]
    · rw [if_neg hc2]
      by_cases hc3 : (runIdxDeletes idxDelete t.indices rn').2
      · rw [if_pos hc3]
        show slotNext (heapDelete t.heap rn').1 rn = slotNext t.heap rn
        unfold heapDelete
        rw [if_neg hc1, if_neg hc2]
        show (t.heap.slots.set (rn' - 1) t.heap.header).getD (rn - 1) 0 =
          t.heap.slots.getD (rn - 1) 0
        exact getD_set_ne _ _ _ _ _ (by omega)
      · rw [if_neg hc3]

theorem deleteRecords_slotNext_notin {α ι : Type}
    (idxDelete : ι → Nat → Except Unit (ι × Option Nat)) (rn : Nat) (h1 : 1 ≤ rn) :
    ∀ (recs : List Nat) (t : TableM α ι), rn ∉ recs →
      slotNext (deleteRecords idxDelete t recs).heap rn = slotNext t.heap rn := by
  intro recs
  induction recs with
  | nil => intro t _; rfl
  | cons r rest ih =>
    intro t hnm
    have hne : r ≠ rn := fun he => hnm (he ▸ List.mem_cons_self r rest)
    have hstep := processRecord_slotNext_other idxDelete t rn r h1 hne
    have := ih (processRecord idxDelete t r) (fun hm => hnm (List.mem_cons_of_mem r hm))
    calc slotNext (deleteRecords idxDelete t (r :: rest)).heap rn
        = slotNext (deleteRecords idxDelete (processRecord idxDelete t r) rest).heap rn := rfl
      _ = slotNext (processRecord idxDelete t r).heap rn := this
      _ = slotNext t.heap rn := hstep

/-- C5: in a multi-record delete, if at the point where record `rn` is
processed some index `delete_record` raises, then `rn`'s heap slot is
not freed: after the whole batch its `next` field is still
`RECORD_NORMAL` (it is live, not on the free-list).  A slot is freed
only when every index removal ran without error. -/
theorem delete_records_failed_index_keeps_slot {α ι : Type}
    (idxDelete : ι → Nat → Except Unit (ι × Option Nat))
    (t : TableM α ι) (pre post : List Nat) (rn : Nat)
    (h1 : 1 ≤ rn) (h2 : rn ∉ post)
    (hlive : slotNext (deleteRecords idxDelete t pre).heap rn = RECORD_NORMAL)
    (hfail : (runIdxDeletes idxDelete (deleteRecords idxDelete t pre).indices rn).2 = false) :
    slotNext (deleteRecords idxDelete t (pre ++ rn :: post)).heap rn = RECORD_NORMAL := by
  have happ : deleteRecords idxDelete t (pre ++ rn :: post) =
      deleteRecords idxDelete (processRecord idxDelete (deleteRecords idxDelete t pre) rn)
        post := by
    unfold deleteRecords
    rw [List.foldl_append]
    rfl
  set t1 := deleteRecords idxDelete t pre with ht1
  have hstep : processRecord idxDelete t1 rn = ⟨t1.heap, (runIdxDeletes idxDelete t1.indices rn).1⟩ := by
    unfold processRecord
    have hin : ¬ (rn < 1 ∨ t1.heap.slots.length < rn) := by
      rcases Nat.lt_or_ge t1.heap.slots.length rn with hlt | hge
      · exfalso
        have : slotNext t1.heap rn = 0 := by
          unfold slotNext
          exact List.getD_eq_default _ _ (by omega)
        rw [this] at hlive
        exact absurd hlive (by decide)
      · omega
    rw [if_neg hin, if_neg (by simp [hlive]), if_neg (by simp [hfail])]
  rw [happ, hstep]
  have hfin := deleteRecords_slotNext_notin idxDelete rn h1 post
    (⟨t1.heap, (runIdxDeletes idxDelete t1.indices rn).1⟩ : TableM α ι) h2
  rw [hfin]
  exact hlive

/-- C5 witness: one live slot, a single index whose delete raises; after
`delete_records [1]` the slot is still live. -/
theorem delete_records_failed_index_keeps_slot_witness :
    slotNext (deleteRecords (ι := Bool) (α := Unit)
      (fun b _ => if b then .error () else .ok (b, none))
      ⟨⟨-1, [-2]⟩, [(("a"), true)]⟩ ([] ++ 1 :: [])).heap 1 = RECORD_NORMAL := by
  exact delete_records_failed_index_keeps_slot _ _ [] [] 1 (by decide) (by decide)
    (by decide) (by decide)

end Engine

namespace Engine

/-! ## Predicate evaluation (tabla.py, `TableStorageManager.select`)

`select` processes the equality list, then the range list (the spatial
list is empty here: the modelled queries carry no spatial predicate).
Each probe with an empty result returns a successful empty result
immediately; a probe on an attribute without an index, or a range probe
on a hash index (whose `range_search`, hash.py:392-418, returns an
error dict instead of a list), appends an error and continues; after
both loops, any accumulated error makes the whole query fail with an
error result that carries only the errors, no record ids.  Candidate
sets are combined by intersection.  `_convert_search_value` is the
identity on non-POINT values, so values below are already converted. -/

/-- An index as `select` sees it: a hash index (`range_search` returns
the not-supported error value) or a tree-like index with a real range
search.  `searchF`/`rangeF` stand for the per-structure behaviour. -/
inductive IdxI (α : Type) where
  | hashI (searchF : α → List Nat)
  | treeI (searchF : α → List Nat) (rangeF : α → α → List Nat)

def idxSearch {α : Type} : IdxI α → α → List Nat
  | .hashI f, v => f v
  | .treeI f _, v => f v

/-- `range_search`: the hash index returns its documented error value
(hash.py:392-418), every other index returns a list of ids. -/
def idxRange {α : Type} : IdxI α → α → α → Except Unit (List Nat)
  | .hashI _, _, _ => .error ()
  | .treeI _ f, lo, hi => .ok (f lo hi)

inductive SErr where
  | noIndex (attr : String)
  | rangeNotSupported (attr : String)
  | noSearches
deriving DecidableEq, Repr

/-- Result of `select`: either record ids, or an error result that
carries the collected errors and no ids. -/
inductive SelRes where
  | ok (ids : List Nat)
  | err (errs : List SErr)
deriving DecidableEq, Repr

/-- The `lista_busquedas` loop (tabla.py:684-698): `Except.error` is the
early `return` out of `select`. -/
def procEquals {α : Type} (indices : List (String × IdxI α)) :
    List (String × α) → List (List Nat) → List SErr →
      Except SelRes (List (List Nat) × List SErr)
  | [], sets, errs => .ok (sets, errs)
  | (a, v) :: rest, sets, errs =>
    match indices.lookup a with
    | some ix =>
      let res := idxSearch ix v
      if res = [] then .error (.ok [])
      else procEquals indices rest (sets ++ [res]) errs
    | none => procEquals indices rest sets (errs ++ [.noIndex a])

/-- The `lista_rangos` loop (tabla.py:700-719). -/
def procRanges {α : Type} (indices : List (String × IdxI α)) :
    List (String × α × α) → List (List Nat) → List SErr →
      Except SelRes (List (List Nat) × List SErr)
  | [], sets, errs => .ok (sets, errs)
  | (a, lo, hi) :: rest, sets, errs =>
    match indices.lookup a with
    | some ix =>
      match idxRange ix lo hi with
      | .error _ => procRanges indices rest sets (errs ++ [.rangeNotSupported a])
      | .ok res =>
        if res = [] then .error (.ok [])
        else procRanges indices rest (sets ++ [res]) errs
    | none => procRanges indices rest sets (errs ++ [.noIndex a])

/-- Sequential set intersection with the empty short-circuit
(tabla.py:765-771); on lists the result is the filter-based
intersection (the id sets are unordered). -/
def interAll : List Nat → List (List Nat) → List Nat
  | acc, [] => acc
  | acc, s :: rest => interAll (acc.filter (· ∈ s)) rest

/-- `TableStorageManager.select` (tabla.py:659-777) restricted to
queries without spatial predicates. -/
def selectQ {α : Type} (indices : List (String × IdxI α)) (allActive : List Nat)
    (busquedas : List (String × α)) (rangos : List (String × α × α)) : SelRes :=
  if busquedas.isEmpty && rangos.isEmpty then .ok allActive
  else
    match procEquals indices busquedas [] [] with
    | .error r => r
    | .ok p =>
      match procRanges indices rangos p.1 p.2 with
      | .error r => r
      | .ok q =>
        if q.2 ≠ [] then .err q.2
        else
          match q.1 with
          | [] => .err [.noSearches]
          | s :: rest => .ok (interAll s rest)

theorem procEquals_ok {α : Type} (indices : List (String × IdxI α))
    (bs : List (String × α))
    (hne : ∀ p ∈ bs, ∀ ix, indices.lookup p.1 = some ix → idxSearch ix p.2 ≠ []) :
    ∀ sets errs, ∃ sets' errs',
      procEquals indices bs sets errs = .ok (sets', errs') ∧
        ∀ e ∈ errs, e ∈ errs' := by
  induction bs with
  | nil => intro sets errs; exact ⟨sets, errs, rfl, fun e he => he⟩
  | cons p rest ih =>
    intro sets errs
    have hrest : ∀ q ∈ rest, ∀ ix, indices.lookup q.1 = some ix → idxSearch ix q.2 ≠ [] :=
      fun q hq => hne q (List.mem_cons_of_mem p hq)
    obtain ⟨a, v⟩ := p
    cases hix : indices.lookup a with
    | some ix =>
      have hres : idxSearch ix v ≠ [] := hne (a, v) (List.mem_cons_self _ _) ix hix
      obtain ⟨s', e', heq, hsub⟩ := ih hrest (sets ++ [idxSearch ix v]) errs
      refine ⟨s', e', ?_, hsub⟩
      simp only [procEquals, hix]
      rw [if_neg hres]
      exact heq
    | none =>
      obtain ⟨s', e', heq, hsub⟩ := ih hrest sets (errs ++ [.noIndex a])
      refine ⟨s', e', ?_, fun e he => hsub e (List.mem_append_left _ he)⟩
      simp only [procEquals, hix]
      exact heq

theorem procRanges_ok {α : Type} (indices : List (String × IdxI α))
    (rs : List (String × α × α))
    (hne : ∀ q ∈ rs, ∀ g rf, indices.lookup q.1 = some (.treeI g rf) →
      rf q.2.1 q.2.2 ≠ []) :
    ∀ sets errs, ∃ sets' errs',
      procRanges indices rs sets errs = .ok (sets', errs') ∧
        (∀ e ∈ errs, e ∈ errs') ∧
        ∀ q ∈ rs, ∀ f, indices.lookup q.1 = some (.hashI f) →
          SErr.rangeNotSupported q.1 ∈ errs' := by
  induction rs with
  | nil =>
    intro sets errs
    exact ⟨sets, errs, rfl, fun e he => he, fun q hq => absurd hq (List.not_mem_nil q)⟩
  | cons p rest ih =>
    intro sets errs
    have hrest : ∀ q ∈ rest, ∀ g rf, indices.lookup q.1 = some (.treeI g rf) →
        rf q.2.1 q.2.2 ≠ [] := fun q hq => hne q (List.mem_cons_of_mem p hq)
    obtain ⟨a, lo, hi⟩ := p
    cases hix : indices.lookup a with
    | some ix =>
      cases ix with
      | hashI f =>
        obtain ⟨s', e', heq, hsub, hmem⟩ := ih hrest sets
          (errs ++ [.rangeNotSupported a])
        refine ⟨s', e', ?_, fun e he => hsub e (List.mem_append_left _ he), ?_⟩
        · simp only [procRanges, hix, idxRange]
          exact heq
        · intro q hq f hf
          rcases List.mem_cons.mp hq with hq' | hq'
          · subst hq'
            exact hsub _ (List.mem_append_right _ (List.mem_singleton_self _))
          · exact hmem q hq' f hf
      | treeI g rf =>
        have hres : rf lo hi ≠ [] := hne (a, lo, hi) (List.mem_cons_self _ _) g rf hix
        obtain ⟨s', e', heq, hsub, hmem⟩ := ih hrest (sets ++ [rf lo hi]) errs
        refine ⟨s', e', ?_, hsub, ?_⟩
        · simp only [procRanges, hix, idxRange]
          rw [if_neg hres]
          exact heq
        · intro q hq f hf
          rcases List.mem_cons.mp hq with hq' | hq'
          · subst hq'
            rw [hix] at hf
            exact absurd hf (by simp)
          · exact hmem q hq' f hf
    | none =>
      obtain ⟨s', e', heq, hsub, hmem⟩ := ih hrest sets (errs ++ [.noIndex a])
      refine ⟨s', e', ?_, fun e he => hsub e (List.mem_append_left _ he), ?_⟩
      · simp only [procRanges, hix]
        exact heq
      · intro q hq f hf
        rcases List.mem_cons.mp hq with hq' | hq'
        · subst hq'
          rw [hix] at hf
          exact absurd hf (by simp)
        · exact hmem q hq' f hf

/-- C3 (amended): if the range list contains a predicate on a
hash-indexed column, its `range_search` returns the not-supported error
value, and — provided no other evaluated predicate produced an empty
candidate set — the whole select fails with an error result carrying
the collected errors and no record ids (no table-scan fallback).  If
some equality probe or some non-hash range probe is empty, `select`
short-circuits first and returns a successful empty result instead. -/
theorem select_hash_range_fails {α : Type} (indices : List (String × IdxI α))
    (allActive : List Nat) (busquedas : List (String × α))
    (rangos : List (String × α × α)) (a : String) (lo hi : α) (f : α → List Nat)
    (hmem : (a, lo, hi) ∈ rangos)
    (hhash : indices.lookup a = some (.hashI f))
    (heqne : ∀ p ∈ busquedas, ∀ ix, indices.lookup p.1 = some ix → idxSearch ix p.2 ≠ [])
    (hrgne : ∀ q ∈ rangos, ∀ g rf, indices.lookup q.1 = some (.treeI g rf) →
      rf q.2.1 q.2.2 ≠ []) :
    ∃ errs, selectQ indices allActive busquedas rangos = .err errs ∧
      SErr.rangeNotSupported a ∈ errs := by
  obtain ⟨s1, e1, heq1, _⟩ := procEquals_ok indices busquedas heqne [] []
  obtain ⟨s2, e2, heq2, _, hmem2⟩ := procRanges_ok indices rangos hrgne s1 e1
  have hra : SErr.rangeNotSupported a ∈ e2 := hmem2 (a, lo, hi) hmem f hhash
  have hre : rangos.isEmpty = false := by
    cases rangos with
    | nil => exact absurd hmem (List.not_mem_nil _)
    | cons _ _ => rfl
  have he2ne : e2 ≠ [] := by
    intro hcon
    rw [hcon] at hra
    exact List.not_mem_nil _ hra
  refine ⟨e2, ?_, hra⟩
  simp only [selectQ, hre, Bool.and_false, Bool.false_eq_true, if_false, heq1, heq2]
  simp [he2ne]

/-- C3 witness for the amended theorem: one hash-indexed column probed
by a range predicate; the query fails with the not-supported error and
no ids. -/
theorem select_hash_range_fails_witness :
    ∃ errs, selectQ [(("h"), IdxI.hashI (fun (_ : Nat) => [1]))] [] []
      [(("h"), 0, 1)] = .err errs ∧ SErr.rangeNotSupported ("h") ∈ errs := by
  refine select_hash_range_fails _ _ _ _ ("h") 0 1 (fun _ => [1]) ?_ rfl ?_ ?_
  · exact List.mem_singleton_self _
  · intro p hp
    exact absurd hp (List.not_mem_nil p)
  · intro q hq g rf hcon
    have hq' : q = (("h"), 0, 1) := List.mem_singleton.mp hq
    subst hq'
    exact absurd hcon (by simp [List.lookup])

/-- C3 counterexample to the claim as stated: the range list contains a
predicate on the hash-indexed column `h`, but an equality predicate on
column `a` evaluates to the empty candidate set first, so `select`
returns a successful empty result instead of failing: the empty-set
short-circuit precedes the error check. -/
theorem select_hash_range_cex :
    selectQ [(("a"), IdxI.treeI (fun (_ : Nat) => []) (fun _ _ => [])),
        (("h"), IdxI.hashI (fun _ => [1]))]
      [] [(("a"), 0)] [(("h"), 0, 1)] = .ok [] := by
  rfl

end Engine

namespace Engine

/-! ## WHERE comparison lowering (sql.py, `_comparison_to_range`,
`_get_max_value_for_type`, `_get_min_value_for_type`)

`_parse_where_with_ranges` converts each `<, <=, >, >=` predicate with
`_comparison_to_range`; the value has already been coerced by
`_convert_value` according to the column's declared type (INT → int,
DECIMAL → float, POINT → Point, CHAR/VARCHAR and DATE → str,
BOOL → bool).  When `_comparison_to_range` returns `None` the predicate
is silently dropped (sql.py:849-852): no range entry is appended. -/

inductive Value where
  | intV (i : ℤ)
  | floatV (q : ℚ)
  | strV (s : String)
  | boolV (b : Bool)
  | pointV (p : Pt)
deriving DecidableEq, Repr

inductive CmpOp where
  | lt | le | gt | ge
deriving DecidableEq, Repr

inductive DType where
  | intT | decimalT | boolT | dateT | charT (n : Nat) | varcharT (n : Nat) | pointT
deriving DecidableEq, Repr

/-- `_get_max_value_for_type` (sql.py:954-968); the string-containment
dispatch on the declared type name resolves per declared type as below
(BOOL and DATE hit the final `else`). -/
def getMaxValueForType : DType → Value
  | .pointT => .pointV ⟨999999, 999999⟩
  | .intT => .intV 2147483647
  | .decimalT => .floatV (99999999999 / 100)
  | .charT _ => .strV ("ZZZZZZZZZ")
  | .varcharT _ => .strV ("ZZZZZZZZZ")
  | .boolT => .intV 999999999
  | .dateT => .intV 999999999

/-- `_get_min_value_for_type` (sql.py:970-984). -/
def getMinValueForType : DType → Value
  | .pointT => .pointV ⟨-999999, -999999⟩
  | .intT => .intV (-2147483648)
  | .decimalT => .floatV (-99999999999 / 100)
  | .charT _ => .strV ("")
  | .varcharT _ => .strV ("")
  | .boolT => .intV (-999999999)
  | .dateT => .intV (-999999999)

/-- `_comparison_to_range` (sql.py:886-939).  `isinstance(value, (int,
float))` is true for Python bools as well (ε = 1, and `True + 1 = 2` is
an int); a strict comparison on any other value type (strings, so
CHAR/VARCHAR and DATE columns) falls through every branch and returns
`None`. -/
def comparisonToRange (attr : String) (op : CmpOp) (v : Value) (dt : DType) :
    Option (String × Value × Value) :=
  match op with
  | .gt =>
    match v with
    | .intV i => some (attr, .intV (i + 1), getMaxValueForType dt)
    | .boolV b => some (attr, .intV ((if b then 1 else 0) + 1), getMaxValueForType dt)
    | .floatV q => some (attr, .floatV (q + 1 / 100), getMaxValueForType dt)
    | .pointV p => some (attr, .pointV ⟨p.x + 1 / 100, p.y + 1 / 100⟩, getMaxValueForType dt)
    | .strV _ => none
  | .ge => some (attr, v, getMaxValueForType dt)
  | .lt =>
    match v with
    | .intV i => some (attr, getMinValueForType dt, .intV (i - 1))
    | .boolV b => some (attr, getMinValueForType dt, .intV ((if b then 1 else 0) - 1))
    | .floatV q => some (attr, getMinValueForType dt, .floatV (q - 1 / 100))
    | .pointV p => some (attr, getMinValueForType dt, .pointV ⟨p.x - 1 / 100, p.y - 1 / 100⟩)
    | .strV _ => none
  | .le => some (attr, getMinValueForType dt, v)

/-- Modelled from the claim's wording: the single range entry for an INT
value, with the declared-type min/max as the open end and ε = 1 on the
closed end of a strict inequality. -/
def claimLowerInt (attr : String) (op : CmpOp) (i : ℤ) (dt : DType) :
    String × Value × Value :=
  match op with
  | .gt => (attr, .intV (i + 1), getMaxValueForType dt)
  | .ge => (attr, .intV i, getMaxValueForType dt)
  | .lt => (attr, getMinValueForType dt, .intV (i - 1))
  | .le => (attr, getMinValueForType dt, .intV i)

/-- Modelled from the claim's wording: ε = 0.01 for DOUBLE/DECIMAL
values. -/
def claimLowerFloat (attr : String) (op : CmpOp) (q : ℚ) (dt : DType) :
    String × Value × Value :=
  match op with
  | .gt => (attr, .floatV (q + 1 / 100), getMaxValueForType dt)
  | .ge => (attr, .floatV q, getMaxValueForType dt)
  | .lt => (attr, getMinValueForType dt, .floatV (q - 1 / 100))
  | .le => (attr, getMinValueForType dt, .floatV q)

/-- Modelled from the claim's wording: POINT offsets both coordinates by
0.01. -/
def claimLowerPt (attr : String) (op : CmpOp) (p : Pt) (dt : DType) :
    String × Value × Value :=
  match op with
  | .gt => (attr, .pointV ⟨p.x + 1 / 100, p.y + 1 / 100⟩, getMaxValueForType dt)
  | .ge => (attr, .pointV p, getMaxValueForType dt)
  | .lt => (attr, getMinValueForType dt, .pointV ⟨p.x - 1 / 100, p.y - 1 / 100⟩)
  | .le => (attr, getMinValueForType dt, .pointV p)

/-- C8 counterexample: a strict comparison whose value is a string (a
CHAR/VARCHAR or DATE column) produces no range entry at all — the
predicate is dropped — contradicting "the parser lowers it to exactly
one range entry". -/
theorem comparison_to_range_string_cex :
    comparisonToRange ("nombre") .lt (.strV ("B")) (.varcharT 50) = none := rfl

/-- C8 (amended): for INT, DOUBLE/DECIMAL and POINT values each
comparison lowers to exactly one range entry with the declared-type
min/max as the open end and the claimed ε-offset on strict bounds
(ε = 1 for INT, 0.01 for DOUBLE/DECIMAL, 0.01 on both coordinates for
POINT); for string values only `<=` and `>=` produce a (single) range
entry, while `<` and `>` produce none and the predicate is dropped. -/
theorem comparison_to_range_amended (attr : String) (dt : DType) :
    (∀ op i, comparisonToRange attr op (.intV i) dt = some (claimLowerInt attr op i dt)) ∧
      (∀ op q, comparisonToRange attr op (.floatV q) dt =
        some (claimLowerFloat attr op q dt)) ∧
      (∀ op p, comparisonToRange attr op (.pointV p) dt =
        some (claimLowerPt attr op p dt)) ∧
      (∀ s, comparisonToRange attr .gt (.strV s) dt = none) ∧
      (∀ s, comparisonToRange attr .lt (.strV s) dt = none) ∧
      (∀ s, comparisonToRange attr .ge (.strV s) dt =
        some (attr, .strV s, getMaxValueForType dt)) ∧
      (∀ s, comparisonToRange attr .le (.strV s) dt =
        some (attr, getMinValueForType dt, .strV s)) := by
  refine ⟨?_, ?_, ?_, fun s => rfl, fun s => rfl, fun s => rfl, fun s => rfl⟩
  · intro op i; cases op <;> rfl
  · intro op q; cases op <;> rfl
  · intro op p; cases op <;> rfl

end Engine

namespace Engine

/-! ## DELETE statement handling (sql.py, `parse_sql_delete` /
`_process_delete`)

`parse_sql_delete` matches `DELETE FROM <table> [WHERE <cond>]`; the
statement below is the post-regex shape (table name and optional WHERE
text).  If the table is unknown or the WHERE clause is absent it
returns an error dict; `_process_delete` returns any parse error
untouched, otherwise it runs `select` on the parsed predicates and
passes the found ids to `delete_records`. -/

structure DeleteStmt where
  table : String
  whereClause : Option String

inductive DelRes where
  | errNoTable
  | errNoWhere
  | errSearch (errs : List SErr)
  | done (records : List Nat)
deriving DecidableEq, Repr

/-- `_get_all_active_record_numbers` (tabla.py:819-835). -/
def allActiveIds (h : HeapF) : List Nat :=
  ((List.range h.slots.length).map (· + 1)).filter
    (fun i => slotNext h i = RECORD_NORMAL)

/-- `parse_sql_delete` + `_process_delete` (sql.py:1594-1648,
1502-1592); `parseWhere` abstracts `_parse_where_with_spatial` for
queries without spatial predicates. -/
def processDelete {α : Type} (idxDelete : IdxI α → Nat → Except Unit (IdxI α × Option Nat))
    (parseWhere : String → List (String × α) × List (String × α × α))
    (tables : List String) (stmt : DeleteStmt) (t : TableM α (IdxI α)) :
    TableM α (IdxI α) × DelRes :=
  if stmt.table ∉ tables then (t, .errNoTable)
  else
    match stmt.whereClause with
    | none => (t, .errNoWhere)
    | some w =>
      let br := parseWhere w
      match selectQ t.indices (allActiveIds t.heap) br.1 br.2 with
      | .err es => (t, .errSearch es)
      | .ok ids =>
        if ids.isEmpty then (t, .done [])
        else (deleteRecords idxDelete t ids, .done ids)

/-- C9: for an existing table, `DELETE FROM t` with no WHERE clause is
refused with the unsupported-operation error, and the table state
(heap file, free-list, indexes) is returned unchanged: no record is
deleted. -/
theorem delete_without_where_refused {α : Type}
    (idxDelete : IdxI α → Nat → Except Unit (IdxI α × Option Nat))
    (parseWhere : String → List (String × α) × List (String × α × α))
    (tables : List String) (stmt : DeleteStmt) (t : TableM α (IdxI α))
    (hex : stmt.table ∈ tables) (hw : stmt.whereClause = none) :
    processDelete idxDelete parseWhere tables stmt t = (t, .errNoWhere) := by
  unfold processDelete
  rw [if_neg (by simp [hex]), hw]

/-- C9 witness: table `T` exists, heap has one live record, the
statement has no WHERE clause; the result is the no-WHERE error with
the state untouched. -/
theorem delete_without_where_refused_witness :
    processDelete (α := Nat) (fun ix _ => .ok (ix, none)) (fun _ => ([], []))
      [("T")] ⟨("T"), none⟩ ⟨⟨-1, [-2]⟩, []⟩ =
      (⟨⟨-1, [-2]⟩, []⟩, .errNoWhere) := by
  exact delete_without_where_refused _ _ _ _ _ (List.mem_singleton_self _) rfl

end Engine

namespace Engine

/-! ## CREATE TABLE attribute parsing and index construction (sql.py,
`parse_sql_create_table`; tabla.py, `TableStorageManager.__init__`)

`parse_sql_create_table` matches each attribute against a regex with
groups (name, data type, optional `PRIMARY KEY`/`KEY`, optional
`INDEX <kind>`); `RawAttr` is the post-regex shape of one match, where
a present `INDEX` clause carries a nonempty `\w+` word.  The attribute
dict records `index = group(4).lower() if group(4) else "hash"`.
`TableStorageManager.__init__` then creates an index object for every
attribute whose `index` entry is truthy (a nonempty string), mapping
unknown kinds to AVL. -/

/-- Python's `str.lower()` (character-wise lowercasing), as a map over
the string's characters. -/
def strLower (s : String) : String := ⟨s.data.map Char.toLower⟩

/-- Python's `str.upper()`. -/
def strUpper (s : String) : String := ⟨s.data.map Char.toUpper⟩

structure RawAttr where
  name : String
  dtype : String
  keyClause : Option String
  indexClause : Option String

structure AttrInfo where
  name : String
  data_type : String
  is_key : Bool
  index : String
deriving DecidableEq, Repr

/-- Body of the attribute loop in `parse_sql_create_table`
(sql.py:653-671). -/
def mkAttribute (m : RawAttr) : AttrInfo :=
  { name := m.name
    data_type := m.dtype
    is_key :=
      match m.keyClause with
      | some k => strUpper k == ("PRIMARY KEY") || strUpper k == ("KEY")
      | none => false
    index :=
      match m.indexClause with
      | some s => strLower s
      | none => ("hash") }

def parseAttributes (ms : List RawAttr) : List AttrInfo := ms.map mkAttribute

inductive IdxKind where
  | hashK | avlK | btreeK | rtreeK
deriving DecidableEq, Repr

/-- `INDEX_CLASSES` (tabla.py:94-100); `isam` aliases the B+ tree. -/
def indexClassOf (s : String) : Option IdxKind :=
  if s == ("hash") then some .hashK
  else if s == ("avl") then some .avlK
  else if s == ("btree") then some .btreeK
  else if s == ("isam") then some .btreeK
  else if s == ("rtree") then some .rtreeK
  else none

/-- The index-creation loop of `TableStorageManager.__init__`
(tabla.py:102-121): one index object per attribute with a truthy
`index` entry; an unsupported kind falls back to AVL. -/
def buildIndices (attrs : List AttrInfo) : List (String × IdxKind) :=
  attrs.foldl
    (fun acc a =>
      if a.index ≠ ("") then acc ++ [(a.name, (indexClassOf (strLower a.index)).getD .avlK)]
      else acc)
    []

theorem buildIndices_mem_aux (attrs : List AttrInfo)
    (hne : ∀ a ∈ attrs, a.index ≠ ("")) :
    ∀ acc : List (String × IdxKind),
      (∀ e ∈ acc, e.1 ∈ (attrs.foldl
        (fun acc a =>
          if a.index ≠ ("") then
            acc ++ [(a.name, (indexClassOf (strLower a.index)).getD .avlK)]
          else acc) acc).map Prod.fst) ∧
      ∀ a ∈ attrs, a.name ∈ (attrs.foldl
        (fun acc a =>
          if a.index ≠ ("") then
            acc ++ [(a.name, (indexClassOf (strLower a.index)).getD .avlK)]
          else acc) acc).map Prod.fst := by
  induction attrs with
  | nil =>
    intro acc
    exact ⟨fun e he => List.mem_map_of_mem Prod.fst he,
      fun a ha => absurd ha (List.not_mem_nil a)⟩
  | cons b rest ih =>
    intro acc
    have hb : b.index ≠ ("") := hne b (List.mem_cons_self b rest)
    have hrest : ∀ a ∈ rest, a.index ≠ ("") :=
      fun a ha => hne a (List.mem_cons_of_mem b ha)
    have ihr := ih hrest (acc ++ [(b.name, (indexClassOf (strLower b.index)).getD .avlK)])
    constructor
    · intro e he
      have : e ∈ acc ++ [(b.name, (indexClassOf (strLower b.index)).getD .avlK)] :=
        List.mem_append_left _ he
      have := ihr.1 e this
      simpa [List.foldl_cons, hb] using this
    · intro a ha
      rcases List.mem_cons.mp ha with ha' | ha'
      · subst ha'
        have : (a.name, (indexClassOf (strLower a.index)).getD .avlK) ∈
            acc ++ [(a.name, (indexClassOf (strLower a.index)).getD .avlK)] :=
          List.mem_append_right _ (List.mem_singleton_self _)
        have := ihr.1 _ this
        simpa [List.foldl_cons, hb] using this
      · have := ihr.2 a ha'
        simpa [List.foldl_cons, hb] using this

theorem strLower_ne_empty (s : String) (h : s ≠ ("")) : strLower s ≠ ("") := by
  intro hcon
  apply h
  have hdata : s.data.map Char.toLower = [] := congrArg String.data hcon
  have hnil : s.data = [] := List.map_eq_nil_iff.mp hdata
  cases s
  simp_all

/-- C10: every attribute parsed from a CREATE TABLE statement that
carries no INDEX clause gets index kind `"hash"` in the catalog entry,
and — since an explicit INDEX clause is a nonempty word — every
declared column ends up with an index object in the table manager (no
column is left unindexed). -/
theorem create_table_every_column_indexed (ms : List RawAttr)
    (hcl : ∀ m ∈ ms, ∀ s, m.indexClause = some s → s ≠ ("")) :
    (∀ m ∈ ms, m.indexClause = none → (mkAttribute m).index = ("hash")) ∧
      ∀ m ∈ ms, (mkAttribute m).name ∈ (buildIndices (parseAttributes ms)).map Prod.fst := by
  constructor
  · intro m _ hnone
    simp [mkAttribute, hnone]
  · have hne : ∀ a ∈ parseAttributes ms, a.index ≠ ("") := by
      intro a ha
      obtain ⟨m, hm, hma⟩ := List.mem_map.mp ha
      subst hma
      cases hidx : m.indexClause with
      | some s =>
        have := strLower_ne_empty s (hcl m hm s hidx)
        simpa [mkAttribute, hidx] using this
      | none =>
        simp [mkAttribute, hidx]
    intro m hm
    exact (buildIndices_mem_aux (parseAttributes ms) hne []).2 (mkAttribute m)
      (List.mem_map_of_mem mkAttribute hm)

/-- C10 witness: two columns, one with `INDEX BTree`, one without; the
latter defaults to hash and both appear in the index map. -/
theorem create_table_every_column_indexed_witness :
    ((mkAttribute ⟨("id"), ("INT"), some ("PRIMARY KEY"), none⟩).index = ("hash")) ∧
      (buildIndices (parseAttributes
        [⟨("id"), ("INT"), some ("PRIMARY KEY"), none⟩,
         ⟨("nombre"), ("VARCHAR[50]"), none, some ("BTree")⟩])).map Prod.fst =
        [("id"), ("nombre")] := by
  constructor
  · exact (create_table_every_column_indexed
      [⟨("id"), ("INT"), some ("PRIMARY KEY"), none⟩,
       ⟨("nombre"), ("VARCHAR[50]"), none, some ("BTree")⟩]
      (by
        intro m hm s hs
        fin_cases hm <;> simp_all
        intro hcon
        rw [hcon] at hs
        exact absurd hs (by decide))).1
      ⟨("id"), ("INT"), some ("PRIMARY KEY"), none⟩ (List.mem_cons_self _ _) rfl
  · decide

end Engine

namespace Engine

/-! ## Extendible hash index (estructuras/hash.py)

`hash_bin` computes a `D`-bit value from the column value (`D = 5`),
renders it with `bin(...)[2:].zfill(D)`, and `insert_record`,
`_distribute_record`, `search` and `delete_record` all locate the
bucket with the same loop: starting from the full hash string, strip
the LEADING character (`b = b[1:]`) until some directory entry is
exactly equal to the remaining string — i.e. the matched entry is the
longest directory entry that is a *suffix* of the hash string.  Python
`int()` truncates toward zero. -/

def hashD : Nat := 5

inductive FieldType where
  | intF | doubleF | stringF | charF | unknownF
deriving DecidableEq, Repr

/-- Python `int()` on an exact rational: truncation toward zero. -/
def pyTrunc (q : ℚ) : ℤ := if 0 ≤ q then ⌊q⌋ else -⌊-q⌋

/-- The numeric hash of `hash_bin` (hash.py:140-161): integer value
`v mod 2^D`, double `int(v·1000) mod 2^D`, text the sum of code points
`mod 2^D`, anything else 0 (Python `%` on a positive modulus is the
Euclidean `mod`, matching `Int.emod`). -/
def hashVal : FieldType → Value → Nat
  | .intF, .intV i => (i % (2 ^ hashD : ℕ)).toNat
  | .doubleF, .floatV q => (pyTrunc (q * 1000) % (2 ^ hashD : ℕ)).toNat
  | .stringF, .strV s => (s.data.map Char.toNat).sum % 2 ^ hashD
  | .charF, .strV s => (s.data.map Char.toNat).sum % 2 ^ hashD
  | _, _ => 0

/-- `zfill(D)`: left-pad with `'0'` to `D` characters. -/
def zfillD (l : List Char) : List Char := List.replicate (hashD - l.length) '0' ++ l

/-- `hash_bin`: `bin(hash_val)[2:].zfill(D)` (`Nat.toDigits 2` produces
the same minimal binary digit string as Python `bin`, with `"0"` for
zero). -/
def hashBin (ft : FieldType) (v : Value) : List Char :=
  zfillD (Nat.toDigits 2 (hashVal ft v))

/-- `next((e for e in self.index if e.prefix == b), None)`. -/
def findEntry (dir : List (List Char × Nat)) (b : List Char) :
    Option (List Char × Nat) :=
  dir.find? (fun e => e.1 == b)

/-- The shared bucket-location loop (hash.py:225-235, 316-322, 352-357,
436-444): try the whole hash string, then keep stripping the first
character until a directory entry matches exactly; the loop ends with
no match when the string is exhausted. -/
def locateEntry (dir : List (List Char × Nat)) : List Char → Option (List Char × Nat)
  | [] => none
  | c :: rest =>
    match findEntry dir (c :: rest) with
    | some e => some e
    | none => locateEntry dir rest

/-- `init_files` (hash.py:163-183): directory entries `"0" → 0` and
`"1" → 1`. -/
def initialDir : List (List Char × Nat) := [(['0'], 0), (['1'], 1)]

/-- Value of a binary digit string (most significant digit first). -/
def binVal (l : List Char) : Nat :=
  l.foldl (fun acc c => 2 * acc + (if c = '1' then 1 else 0)) 0

theorem hashVal_lt (ft : FieldType) (v : Value) : hashVal ft v < 2 ^ hashD := by
  cases ft <;> cases v <;> simp only [hashVal, hashD] <;> omega

theorem zfill_toDigits_small :
    ∀ n < 32, (zfillD (Nat.toDigits 2 n)).length = hashD ∧
      binVal (zfillD (Nat.toDigits 2 n)) = n := by decide

theorem locateEntry_spec (dir : List (List Char × Nat)) (b : List Char) :
    (∀ e, locateEntry dir b = some e → e ∈ dir ∧ e.1 ≠ [] ∧ e.1 <:+ b ∧
      ∀ e' ∈ dir, e'.1 <:+ b → e'.1.length ≤ e.1.length) ∧
    (locateEntry dir b = none → ∀ e' ∈ dir, e'.1 ≠ [] → ¬ e'.1 <:+ b) := by
  induction b with
  | nil =>
    constructor
    · intro e he
      exact absurd he (by simp [locateEntry])
    · intro _ e' _ hne hsuf
      exact hne (List.suffix_nil.mp hsuf)
  | cons c rest ih =>
    constructor
    · intro e he
      simp only [locateEntry] at he
      cases hf : findEntry dir (c :: rest) with
      | some e0 =>
        rw [hf] at he
        have hf' : dir.find? (fun e => e.1 == c :: rest) = some e0 := hf
        have heq : e0 = e := Option.some.inj he
        have hmem : e ∈ dir := heq ▸ List.mem_of_find?_eq_some hf'
        have hpe : e.1 = c :: rest := by
          rw [← heq]
          have hbeq := List.find?_some hf'
          exact eq_of_beq hbeq
        refine ⟨hmem, by simp [hpe], by rw [hpe], ?_⟩
        intro e' he' hsuf'
        have hlen := hsuf'.length_le
        rw [hpe]
        simpa using hlen
      | none =>
        rw [hf] at he
        obtain ⟨hmem, hne, hsuf, hmax⟩ := ih.1 e he
        refine ⟨hmem, hne, hsuf.trans (List.suffix_cons c rest), ?_⟩
        intro e' he' hsuf'
        rcases List.suffix_cons_iff.mp hsuf' with h1 | h1
        · exfalso
          have hf' : dir.find? (fun e => e.1 == c :: rest) = none := hf
          have := List.find?_eq_none.mp hf' e' he'
          simp [h1] at this
        · exact hmax e' he' h1
    · intro hnone e' he' hne hsuf
      simp only [locateEntry] at hnone
      cases hf : findEntry dir (c :: rest) with
      | some e0 =>
        rw [hf] at hnone
        exact absurd hnone (by simp)
      | none =>
        rw [hf] at hnone
        rcases List.suffix_cons_iff.mp hsuf with h1 | h1
        · have hf' : dir.find? (fun e => e.1 == c :: rest) = none := hf
          have := List.find?_eq_none.mp hf' e' he'
          simp [h1] at this
        · exact ih.2 hnone e' he' hne h1

/-- C7 (amended): the D-bit key is: integer `v mod 2^D`, double
`int(v·1000) mod 2^D` with `int` truncating toward zero (not `⌊·⌋`),
text the sum of code points `mod 2^D`, other types 0; it is rendered as
a binary string of exactly `D` digits whose value is the key; and the
bucket probed by insert, search and delete is the one whose directory
entry equals the longest *suffix* of that D-digit hash string present
in the directory (the locator strips leading bits until an entry
matches exactly); when no nonempty suffix matches, no bucket is
found. -/
theorem hash_prefix_scheme_amended :
    (∀ i : ℤ, hashVal .intF (.intV i) = (i % (2 ^ hashD : ℕ)).toNat) ∧
      (∀ q : ℚ, hashVal .doubleF (.floatV q) =
        (pyTrunc (q * 1000) % (2 ^ hashD : ℕ)).toNat) ∧
      (∀ s : String, hashVal .stringF (.strV s) =
        (s.data.map Char.toNat).sum % 2 ^ hashD) ∧
      (∀ p : Pt, hashVal .unknownF (.pointV p) = 0) ∧
      (∀ ft v, (hashBin ft v).length = hashD ∧ binVal (hashBin ft v) = hashVal ft v) ∧
      (∀ dir b,
        (∀ e, locateEntry dir b = some e → e ∈ dir ∧ e.1 ≠ [] ∧ e.1 <:+ b ∧
          ∀ e' ∈ dir, e'.1 <:+ b → e'.1.length ≤ e.1.length) ∧
        (locateEntry dir b = none → ∀ e' ∈ dir, e'.1 ≠ [] → ¬ e'.1 <:+ b)) := by
  refine ⟨fun i => rfl, fun q => rfl, fun s => rfl, fun p => rfl, ?_, locateEntry_spec⟩
  intro ft v
  have h32 : (2 : ℕ) ^ hashD = 32 := by norm_num [hashD]
  exact zfill_toDigits_small (hashVal ft v) (h32 ▸ hashVal_lt ft v)

/-- C7 counterexample: with the initial directory `{"0" → 0, "1" → 1}`,
the integer value 1 hashes to `"00001"` and the probed entry is
`("1", 1)` — whose key `"1"` is *not* a prefix of the hash — even
though `("0", 0)` is a directory entry whose key is a prefix; and for
the double value `-0.0016` the computed hash string is `"11111"`
(truncation toward zero: `int(-1.6) = -1`), not the `"11110"` that the
claimed `⌊v·1000⌋ mod 2^D` formula gives. -/
theorem hash_prefix_scheme_cex :
    locateEntry initialDir (hashBin .intF (.intV 1)) = some (['1'], 1) ∧
      ¬ (['1'] <+: hashBin .intF (.intV 1)) ∧
      (['0'], 0) ∈ initialDir ∧ (['0'] <+: hashBin .intF (.intV 1)) ∧
      hashBin .doubleF (.floatV (-1 / 625)) = ['1', '1', '1', '1', '1'] ∧
      zfillD (Nat.toDigits 2 ((⌊(-1 / 625 : ℚ) * 1000⌋ % (2 ^ hashD : ℕ)).toNat)) =
        ['1', '1', '1', '1', '0'] := by
  have h0 : (-1 / 625 : ℚ) * 1000 = -8 / 5 := by norm_num
  have htr : pyTrunc (-8 / 5 : ℚ) = -1 := by
    rw [pyTrunc, if_neg (by norm_num)]
    norm_num
  have hfl : ⌊(-8 / 5 : ℚ)⌋ = -2 := by norm_num
  refine ⟨by decide, by decide, by decide, by decide, ?_, ?_⟩
  · show zfillD (Nat.toDigits 2 ((pyTrunc ((-1 / 625 : ℚ) * 1000) %
      (2 ^ hashD : ℕ)).toNat)) = ['1', '1', '1', '1', '1']
    rw [h0, htr]
    decide
  · rw [h0, hfl]
    decide

end Engine

namespace Engine

/-! ## Disk-resident AVL index (estructuras/avl.py)

The file holds fixed nodes `(clave, left, right, height, next)` linked
by 1-based node indices; below the pointer structure is the functional
tree (node allocation and free-list reuse decide where a node is
stored, not which keys sit where).  `clave` is a record id, and every
comparison fetches the indexed column's value of that id from the heap
file (`get_attribute_from_record_num`), modelled by `val : Nat → ℤ`
for an INT column.  `_compare_keys` compares the two values with
Python `<`/`>`. -/

inductive ATree where
  | nil
  | node (l : ATree) (clave : Nat) (r : ATree) (h : Nat)
deriving DecidableEq, Repr

/-- `_get_height`: 0 for nil, else the stored height field. -/
def aheight : ATree → Nat
  | .nil => 0
  | .node _ _ _ h => h

/-- `_update_height`: 1 + max of the children's stored heights. -/
def updateHeight : ATree → ATree
  | .nil => .nil
  | .node l k r _ => .node l k r (1 + max (aheight l) (aheight r))

/-- `_balance_factor`: height(left) − height(right). -/
def balanceFactor : ATree → ℤ
  | .nil => 0
  | .node l _ r _ => (aheight l : ℤ) - (aheight r : ℤ)

/-- `_rotate_right` (avl.py:284-303), heights of the two rotated nodes
recomputed afterwards in the code's order (first the demoted node, then
the new root). -/
def rotateRight : ATree → ATree
  | .nil => .nil
  | .node l k r h =>
    match l with
    | .nil => .node l k r h
    | .node ll lk lr lh =>
      let newY := updateHeight (.node lr k r h)
      updateHeight (.node ll lk newY lh)

/-- `_rotate_left` (avl.py:305-324). -/
def rotateLeft : ATree → ATree
  | .nil => .nil
  | .node l k r h =>
    match r with
    | .nil => .node l k r h
    | .node rl rk rr rh =>
      let newX := updateHeight (.node l k rl h)
      updateHeight (.node newX rk rr rh)

/-- `_rebalance` (avl.py:326-356): update the height, then the four
standard rotation cases; when neither unbalance case applies the node
is returned as is. -/
def rebalance (t : ATree) : ATree :=
  match updateHeight t with
  | .nil => .nil
  | .node l k r h =>
    let b := balanceFactor (.node l k r h)
    if b > 1 then
      if l ≠ .nil ∧ balanceFactor l ≥ 0 then rotateRight (.node l k r h)
      else if l ≠ .nil then rotateRight (.node (rotateLeft l) k r h)
      else .node l k r h
    else if b < -1 then
      if r ≠ .nil ∧ balanceFactor r ≤ 0 then rotateLeft (.node l k r h)
      else if r ≠ .nil then rotateLeft (.node l k (rotateRight r) h)
      else .node l k r h
    else .node l k r h

/-- `_insert_rec` (avl.py:383-408): descend by value comparison; on an
equal value, a key index returns unchanged (before rebalancing) while a
non-key index inserts into the RIGHT subtree; rebalance on the way
up. -/
def insertRec (val : Nat → ℤ) (isKey : Bool) (clave : Nat) : ATree → ATree
  | .nil => .node .nil clave .nil 1
  | .node l k r h =>
    if val clave < val k then
      rebalance (.node (insertRec val isKey clave l) k r h)
    else if val clave > val k then
      rebalance (.node l k (insertRec val isKey clave r) h)
    else
      if isKey then .node l k r h
      else rebalance (.node l k (insertRec val isKey clave r) h)

/-- `_search_rec` (avl.py:438-491): on an equal value a non-key index
explores BOTH subtrees, "because the duplicates can be on the left as
well as on the right" after rotations. -/
def searchRec (val : Nat → ℤ) (isKey : Bool) (target : ℤ) : ATree → List Nat
  | .nil => []
  | .node l k r _ =>
    if target < val k then searchRec val isKey target l
    else if target > val k then searchRec val isKey target r
    else
      [k] ++ (if isKey then []
        else searchRec val isKey target l ++ searchRec val isKey target r)

/-- `insert_record` (avl.py:358-381): a key index first probes for an
equal value and refuses the insert when one exists; the first node
makes the root. -/
def avlInsert (val : Nat → ℤ) (isKey : Bool) (clave : Nat) (t : ATree) : ATree :=
  if isKey ∧ t ≠ ATree.nil ∧ searchRec val isKey (val clave) t ≠ [] then t
  else
    match t with
    | ATree.nil => .node .nil clave .nil 1
    | _ => insertRec val isKey clave t

/-- `_range_search_rec`, non-POINT branch (avl.py:543-550): recurse
left only when `min_value < current`, emit the node when
`min_value ≤ current ≤ max_value`, recurse right when
`current ≤ max_value`; ids are collected in visit order. -/
def rangeSearchRec (val : Nat → ℤ) (lo hi : ℤ) : ATree → List Nat
  | .nil => []
  | .node l k r _ =>
    (if lo < val k then rangeSearchRec val lo hi l else []) ++
      (if lo ≤ val k ∧ val k ≤ hi then [k] else []) ++
      (if val k ≤ hi then rangeSearchRec val lo hi r else [])

/-- All record ids stored in the tree (in-order). -/
def avlKeys : ATree → List Nat
  | .nil => []
  | .node l k r _ => avlKeys l ++ [k] ++ avlKeys r

/-- A non-key INT column in which records 1, 2 and 3 all hold the
value 5. -/
def valAll5 : Nat → ℤ := fun _ => 5

/-- Insert records 1, 2, 3 (all value 5) into an empty non-key AVL
index.  Inserting 3 triggers a left rotation at the root, leaving
record 1 — an equal-valued duplicate — in the LEFT subtree of the
equal-valued root 2. -/
def dupTree : ATree :=
  avlInsert valAll5 false 3 (avlInsert valAll5 false 2 (avlInsert valAll5 false 1 ATree.nil))

/-- C1: the AVL `range_search` is NOT exact.  After inserting the three
live records 1, 2, 3, all with column value 5, into a non-key AVL
index, the tree contains all three ids and the equality search finds
all three, but `range_search(5, 5)` returns only `[2, 3]`: record 1 is
a live id whose value is inside the range, yet it is missing, because
the recursion prunes the left subtree whenever `min_value <
current_value` fails, while rotations can move equal-valued duplicates
into the left subtree (which is exactly why `_search_rec` explores both
subtrees on equality). -/
theorem avl_range_search_misses_duplicate :
    1 ∈ avlKeys dupTree ∧ valAll5 1 = 5 ∧
      searchRec valAll5 false 5 dupTree = [2, 1, 3] ∧
      rangeSearchRec valAll5 5 5 dupTree = [2, 3] ∧
      1 ∉ rangeSearchRec valAll5 5 5 dupTree := by
  exact ⟨by decide, rfl, by decide, by decide, by decide⟩

end Engine
